import Mathlib

/-!
Shallow embedding of `mariogeiger/negamax` (`src/lib.rs`).

The Rust crate is a generic depth-limited negamax engine with alpha-beta
pruning and a transposition table.  The trait `GameState` supplies the game
model (`win`, `value`, `possibilities`, `swap`, `symmetries`); it is embedded
here as the structure `Game`.  Rust `i32` scores are embedded as `Int`
(the engine relies on the sentinel `-i32::MAX` staying strictly inside the
representable range, so no wraparound is modelled); the search depth is
embedded as `Nat` (the engine counts it down to `0`).
-/

namespace Negamax

/-- `std::i32::MAX`. -/
def I32MAX : Int := 2147483647

/-- The capability contract of `trait GameState` (src/lib.rs lines 1-17):
win test, valuation from the `+1` perspective, move generation, player swap
(embedded as a pure function instead of in-place mutation), and symmetry
enumeration.  The required total order is supplied by a `LinearOrder`
instance on the state type. -/
structure Game (S : Type) where
  win : S → Int → Bool
  value : S → Int
  possibilities : S → Int → List S
  swap : S → S
  symmetries : S → List S

variable {S : Type} [LinearOrder S] [DecidableEq S]

/-- `state.symmetries().into_iter().min().unwrap()` (src/lib.rs lines 218, 267).
The source unwraps (panics on an empty symmetry list, which the crate treats
as a precondition violation); the embedding returns the state itself in that
impossible case. -/
def canon (g : Game S) (s : S) : S :=
  match (g.symmetries s).min? with
  | some m => m
  | none => s

/-- `enum Interval` (src/lib.rs lines 126-133). -/
inductive Interval where
  | Upperbound : Int → Interval
  | Lowerbound : Int → Interval
  | Range : Int → Int → Interval
  | Exact : Int → Interval
  | Unconstrained : Interval
deriving DecidableEq, Repr

/-- `impl Add for Interval` (src/lib.rs lines 137-174).  The source ends with
the commuting catch-all arm `(x, y) => y + x`; the arms after the `Range/Range`
case below are that catch-all expanded case by case (each one evaluates the
corresponding earlier arm with the operands exchanged). -/
def Interval.add : Interval → Interval → Interval
  | .Unconstrained, y => y
  | .Exact x, _ => .Exact x
  | .Upperbound xb, .Upperbound yb => .Upperbound (min xb yb)
  | .Upperbound xb, .Lowerbound ya =>
      if ya = xb then .Exact ya else .Range ya xb
  | .Upperbound xb, .Range ya yb =>
      if ya = xb then .Exact ya else .Range ya (min xb yb)
  | .Lowerbound xa, .Lowerbound ya => .Lowerbound (max xa ya)
  | .Lowerbound xa, .Range ya yb =>
      if xa = yb then .Exact xa else .Range (max xa ya) yb
  | .Range xa xb, .Range ya yb =>
      if xa = yb then .Exact xa
      else if ya = xb then .Exact ya
      else .Range (max xa ya) (min xb yb)
  | .Upperbound xb, .Exact y => .Exact y
  | .Upperbound xb, .Unconstrained => .Upperbound xb
  | .Lowerbound xa, .Exact y => .Exact y
  | .Lowerbound xa, .Unconstrained => .Lowerbound xa
  | .Lowerbound xa, .Upperbound yb =>
      if xa = yb then .Exact xa else .Range xa yb
  | .Range xa xb, .Exact y => .Exact y
  | .Range xa xb, .Unconstrained => .Range xa xb
  | .Range xa xb, .Upperbound yb =>
      if xa = yb then .Exact xa else .Range xa (min yb xb)
  | .Range xa xb, .Lowerbound ya =>
      if ya = xb then .Exact ya else .Range (max ya xa) xb

/-- `pub struct Table<S: Ord>(BTreeMap<(i32, S), Interval>)` (src/lib.rs
line 177), embedded as an association list with unique keys. -/
def Table (S : Type) : Type := List ((Nat × S) × Interval)

/-- `Table::new` (src/lib.rs lines 192-194). -/
def Table.new (S : Type) : Table S := []

/-- Map lookup in the embedded `BTreeMap`. -/
def Table.find? (t : Table S) (k : Nat × S) : Option Interval :=
  match t with
  | [] => none
  | (k2, v) :: rest => if k2 = k then some v else Table.find? rest k

/-- Map update (insert or overwrite) in the embedded `BTreeMap`. -/
def Table.set (t : Table S) (k : Nat × S) (v : Interval) : Table S :=
  match t with
  | [] => [(k, v)]
  | (k2, w) :: rest =>
      if k2 = k then (k, v) :: rest else (k2, w) :: Table.set rest k v

/-- `Table::len` (src/lib.rs lines 196-198). -/
def Table.len (t : Table S) : Nat := List.length t

/-- `Table::is_empty` (src/lib.rs lines 200-202). -/
def Table.is_empty (t : Table S) : Bool := List.isEmpty t

/-- `Table::get` (src/lib.rs lines 204-251).  The two `&mut i32` window
parameters are embedded by returning the updated pair next to the optional
score: `(found score, final alpha, final beta)`.  The source's `player == -1`
branch clones the state, swaps it and retries with player `+1`; that is the
`s0` computation below. -/
def Table.get (g : Game S) (t : Table S) (s : S) (player : Int) (depth : Nat)
    (alpha beta : Int) : Option Int × Int × Int :=
  let s0 := if player = -1 then g.swap s else s
  let c := canon g s0
  match t.find? (depth, c) with
  | none => (none, alpha, beta)
  | some entry =>
    match entry with
    | .Exact v => (some v, alpha, beta)
    | .Upperbound b =>
        let beta2 := if b < beta then b else beta
        if alpha ≥ beta2 then (some alpha, alpha, beta2)
        else (none, alpha, beta2)
    | .Lowerbound a =>
        let alpha2 := if a > alpha then a else alpha
        if alpha2 ≥ beta then (some alpha2, alpha2, beta)
        else (none, alpha2, beta)
    | .Range a b =>
        let alpha2 := if a > alpha then a else alpha
        let beta2 := if b < beta then b else beta
        if alpha2 ≥ beta2 then (some alpha2, alpha2, beta2)
        else (none, alpha2, beta2)
    | .Unconstrained =>
        if alpha ≥ beta then (some alpha, alpha, beta)
        else (none, alpha, beta)

/-- `Table::insert` (src/lib.rs lines 253-280): swap to the `+1` perspective
when `player == -1`, canonicalize by symmetry minimum, classify the value
against the supplied window, and merge into the existing entry with
`Interval` addition (`entry(key).or_insert(Unconstrained)` then
`*old = *old + entry`). -/
def Table.insert (g : Game S) (t : Table S) (s : S) (player : Int)
    (depth : Nat) (alpha beta value : Int) : Table S :=
  let s0 := if player = -1 then g.swap s else s
  let c := canon g s0
  let entry : Interval :=
    if value ≤ alpha then .Upperbound value
    else if beta ≤ value then .Lowerbound value
    else .Exact value
  let old := (t.find? (depth, c)).getD .Unconstrained
  t.set (depth, c) (old.add entry)

/-- The child loop of `GameState::negamax` (src/lib.rs lines 32-44):
`f` is the recursive call at the child depth, `beta` is fixed, and the
accumulators are `best_value` and the running `alpha`; the loop breaks as
soon as `alpha >= beta` after an update. -/
def negamaxLoop (f : S → Int → Int → Int) (beta : Int) :
    List S → Int → Int → Int
  | [], best, _ => best
  | c :: rest, best, alpha =>
    let v := - f c (-beta) (-alpha)
    let best2 := if v > best then v else best
    let alpha2 := if v > alpha then v else alpha
    if alpha2 ≥ beta then best2 else negamaxLoop f beta rest best2 alpha2

/-- `GameState::negamax` (src/lib.rs lines 23-46). -/
def negamax (g : Game S) : Int → Nat → S → Int → Int → Int
  | player, 0, s, _, _ => player * g.value s * 1
  | player, d + 1, s, alpha, beta =>
    if g.win s (-player) then player * g.value s * ((d : Int) + 2)
    else
      negamaxLoop (fun c a b => negamax g (-player) d c a b) beta
        (g.possibilities s player) (-I32MAX) alpha

/-- The child loop of `GameState::negamax_table` (src/lib.rs lines 73-85),
threading the table through the recursive calls. -/
def ntLoop (f : S → Int → Int → Table S → Int × Table S) (beta : Int) :
    List S → Int → Int → Table S → Int × Table S
  | [], best, _, t => (best, t)
  | c :: rest, best, alpha, t =>
    let r := f c (-beta) (-alpha) t
    let v := - r.1
    let best2 := if v > best then v else best
    let alpha2 := if v > alpha then v else alpha
    if alpha2 ≥ beta then (best2, r.2)
    else ntLoop f beta rest best2 alpha2 r.2

/-- `GameState::negamax_table` (src/lib.rs lines 48-96): terminal check,
delegation to plain `negamax` when `depth <= 2`, table probe (which may
narrow the window in place or answer directly), the child loop with the
possibly narrowed window, and the final insert.  Note that the source
captures `orig_alpha`/`orig_beta` after `table.get` has mutated them, so the
insert below classifies against the narrowed window, exactly as the code
does. -/
def negamax_table (g : Game S) :
    Int → Nat → S → Int → Int → Table S → Int × Table S
  | player, 0, s, _, _, t => (player * g.value s * 1, t)
  | player, d + 1, s, alpha, beta, t =>
    if g.win s (-player) then (player * g.value s * ((d : Int) + 2), t)
    else if d + 1 ≤ 2 then (negamax g player (d + 1) s alpha beta, t)
    else
      match Table.get g t s player (d + 1) alpha beta with
      | (some v, _, _) => (v, t)
      | (none, alpha2, beta2) =>
        let r := ntLoop (fun c a b tt => negamax_table g (-player) d c a b tt)
          beta2 (g.possibilities s player) (-I32MAX) alpha2 t
        (r.1, Table.insert g r.2 s player (d + 1) alpha2 beta2 r.1)

/-- `GameState::negamax_value` (src/lib.rs lines 100-102); the mutated table
is returned next to the score. -/
def negamax_value (g : Game S) (player : Int) (depth : Nat) (s : S)
    (t : Table S) : Int × Table S :=
  let r := negamax_table g player depth s (-I32MAX) I32MAX t
  (player * r.1, r.2)

/-- The enumeration loop of `GameState::bot_play` (src/lib.rs lines 108-118):
a strictly larger score clears the collection and restarts it with the
current child; an equal score appends the child. -/
def botGo (g : Game S) (player : Int) (depth : Nat) :
    List S → Int → List S → Table S → List S × Table S
  | [], _, results, t => (results, t)
  | c :: rest, best, results, t =>
    let r := negamax_table g (-player) depth c (-I32MAX) I32MAX t
    let v := - r.1
    if v > best then botGo g player depth rest v [c] r.2
    else if v = best then botGo g player depth rest best (results ++ [c]) r.2
    else botGo g player depth rest best results r.2

/-- `GameState::bot_play` (src/lib.rs lines 104-121). -/
def bot_play (g : Game S) (s : S) (player : Int) (depth : Nat)
    (t : Table S) : List S × Table S :=
  botGo g player depth (g.possibilities s player) (-I32MAX) [] t

/-- The per-child scores of the `bot_play` enumeration with the table
threaded left to right: each child `c` is paired with
`-negamax_table(c, -player, depth, -i32::MAX, i32::MAX, table-so-far)`,
and the final table is returned as well. -/
def botScan (g : Game S) (player : Int) (depth : Nat) :
    List S → Table S → List (S × Int) × Table S
  | [], t => ([], t)
  | c :: rest, t =>
    let r := negamax_table g (-player) depth c (-I32MAX) I32MAX t
    let r2 := botScan g player depth rest r.2
    ((c, - r.1) :: r2.1, r2.2)

end Negamax

namespace Negamax

variable {S : Type} [LinearOrder S] [DecidableEq S]

/-- Unfolding equation for `Table.insert` with the `let` bindings expanded. -/
theorem Table.insert_eq (g : Game S) (t : Table S) (s : S) (p : Int) (d : Nat)
    (α β v : Int) :
    Table.insert g t s p d α β v =
      t.set (d, canon g (if p = -1 then g.swap s else s))
        (((t.find? (d, canon g (if p = -1 then g.swap s else s))).getD .Unconstrained).add
          (if v ≤ α then Interval.Upperbound v
           else if β ≤ v then Interval.Lowerbound v
           else Interval.Exact v)) := rfl

/-- `Unconstrained` is a left identity of `Interval` addition (first arm of the
source `match`). -/
theorem Interval.unconstrained_add (e : Interval) :
    Interval.add .Unconstrained e = e := by
  cases e <;> rfl

/-- An existing `Exact` record absorbs anything added to it (second arm of the
source `match`). -/
theorem Interval.exact_add (x : Int) (e : Interval) :
    Interval.add (.Exact x) e = .Exact x := by
  cases e <;> rfl

/-- Looking up the key just written. -/
theorem Table.find?_set_self (t : Table S) (k : Nat × S) (v : Interval) :
    (t.set k v).find? k = some v := by
  induction t with
  | nil => simp [Table.set, Table.find?]
  | cons hd tl ih =>
    obtain ⟨k2, w⟩ := hd
    by_cases h : k2 = k
    · subst h; simp [Table.set, Table.find?]
    · simp [Table.set, Table.find?, h, ih]

/-- Writing one key leaves every other key unchanged. -/
theorem Table.find?_set_ne (t : Table S) (k k2 : Nat × S) (v : Interval)
    (h : k2 ≠ k) :
    (t.set k v).find? k2 = t.find? k2 := by
  induction t with
  | nil =>
    simp [Table.set, Table.find?]
    intro hh
    exact absurd hh.symm h
  | cons hd tl ih =>
    obtain ⟨ka, w⟩ := hd
    by_cases hk : ka = k
    · subst hk
      have hne : ka ≠ k2 := fun hh => h hh.symm
      simp [Table.set, Table.find?, hne]
    · by_cases hk2 : ka = k2
      · subst hk2; simp [Table.set, Table.find?, hk]
      · simp [Table.set, Table.find?, hk, hk2, ih]

/-- C2: for every state `s`, player `p`, and depth `d` such that `d = 0` or
`s.win (-p)` holds, both `negamax` and `negamax_table` return
`p * s.value * (d + 1)`, and `negamax_table` neither reads nor modifies the
table (its result is independent of `t` and the returned table is `t`
itself).  Source: src/lib.rs lines 26-28 and 56-58. -/
theorem negamax_terminal_eval (g : Game S) (p : Int) (d : Nat) (s : S)
    (α β : Int) (h : d = 0 ∨ g.win s (-p) = true) :
    negamax g p d s α β = p * g.value s * ((d : Int) + 1)
    ∧ ∀ t : Table S,
        negamax_table g p d s α β t = (p * g.value s * ((d : Int) + 1), t) := by
  cases d with
  | zero =>
    refine ⟨by simp [negamax], fun t => by simp [negamax_table]⟩
  | succ d =>
    have hw : g.win s (-p) = true := by
      rcases h with h | h
      · exact absurd h (Nat.succ_ne_zero d)
      · exact h
    constructor
    · simp only [negamax, hw, if_true]
      push_cast
      ring
    · intro t
      simp only [negamax_table, hw, if_true, Prod.mk.injEq, and_true]
      push_cast
      ring

/-- C2 witness: a game that is always won by `+1`; at player `+1`, depth `4`,
`value 7`, both searches return `1 * 7 * 5 = 35` and the table is untouched. -/
def gW2 : Game Int :=
  ⟨fun _ _ => true, fun _ => 7, fun _ _ => [], fun s => s, fun s => [s]⟩

theorem negamax_terminal_eval_witness :
    negamax gW2 1 4 0 (-3) 3 = 35
    ∧ negamax_table gW2 1 4 0 (-3) 3 (Table.new Int) = (35, Table.new Int) := by
  have h := negamax_terminal_eval gW2 1 4 0 (-3) 3 (Or.inr rfl)
  exact ⟨by simpa using h.1, by simpa using h.2 (Table.new Int)⟩

/-- C9: at depth `d > 0`, with no terminal win for the opponent and an empty
move list, `negamax` returns the sentinel minimum `-i32::MAX = -2147483647`
rather than signalling an error.  Source: src/lib.rs lines 30-46. -/
theorem negamax_empty_possibilities_sentinel (g : Game S) (p : Int) (d : Nat)
    (s : S) (α β : Int) (hd : 0 < d) (hw : g.win s (-p) = false)
    (hp : g.possibilities s p = []) :
    negamax g p d s α β = -2147483647 := by
  obtain ⟨e, rfl⟩ : ∃ e, d = e + 1 := ⟨d - 1, by omega⟩
  simp [negamax, hw, hp, negamaxLoop, I32MAX]

/-- C9 witness: a stuck game with no moves and no winner. -/
def gW9 : Game Int :=
  ⟨fun _ _ => false, fun _ => 0, fun _ _ => [], fun s => s, fun s => [s]⟩

theorem negamax_empty_possibilities_sentinel_witness :
    negamax gW9 1 3 0 0 5 = -2147483647 :=
  negamax_empty_possibilities_sentinel gW9 1 3 0 0 5 (by decide) rfl rfl

/-- C3: `insert` stores its record under the key `(d, c)` where `c` is the
minimum of the symmetries of the state swapped to the `+1` perspective when
`p = -1`; when no record exists at that key yet, the stored record is exactly
the freshly classified one: `Upperbound v` when `v ≤ α`, `Lowerbound v` when
`v ≥ β`, `Exact v` otherwise; all other keys are untouched.
Source: src/lib.rs lines 253-280. -/
theorem table_insert_fresh_key_classification (g : Game S) (t : Table S)
    (s : S) (p : Int) (d : Nat) (α β v : Int) (c : S)
    (hc : (g.symmetries (if p = -1 then g.swap s else s)).min? = some c)
    (hfresh : t.find? (d, c) = none) :
    (Table.insert g t s p d α β v).find? (d, c) =
      some (if v ≤ α then Interval.Upperbound v
            else if β ≤ v then Interval.Lowerbound v
            else Interval.Exact v)
    ∧ ∀ k : Nat × S, k ≠ (d, c) →
        (Table.insert g t s p d α β v).find? k = t.find? k := by
  have hcanon : canon g (if p = -1 then g.swap s else s) = c := by
    unfold canon; rw [hc]
  rw [Table.insert_eq, hcanon, hfresh]
  simp only [Option.getD_none, Interval.unconstrained_add]
  exact ⟨Table.find?_set_self t (d, c) _,
    fun k hk => Table.find?_set_ne t (d, c) k _ hk⟩

/-- C3 witness: inserting value `2` with window `(0, 5)` into an empty table
for player `+1` stores `Exact 2` under `(3, 7)`. -/
def gW3 : Game Int :=
  ⟨fun _ _ => false, fun _ => 0, fun _ _ => [], fun s => s, fun s => [s]⟩

theorem table_insert_fresh_key_classification_witness :
    (Table.insert gW3 (Table.new Int) 7 1 3 0 5 2).find? (3, 7) =
      some (Interval.Exact 2) := by
  have h := table_insert_fresh_key_classification gW3 (Table.new Int) 7 1 3 0 5 2 7
    (by decide) (by decide)
  simpa using h.1

/-- C10: once the table maps a key to an `Exact` record, any later `insert`
targeting the same key leaves the stored record unchanged, whatever the fresh
value and window: the merge `Exact x + entry = Exact x` discards the new
record.  Source: src/lib.rs lines 137-174 (second arm) and 278-279. -/
theorem table_insert_preserves_exact (g : Game S) (t : Table S) (s : S)
    (p : Int) (d : Nat) (α β v x : Int) (c : S)
    (hc : canon g (if p = -1 then g.swap s else s) = c)
    (hold : t.find? (d, c) = some (Interval.Exact x)) :
    (Table.insert g t s p d α β v).find? (d, c) = some (Interval.Exact x) := by
  rw [Table.insert_eq, hc, hold]
  simp only [Option.getD_some, Interval.exact_add]
  exact Table.find?_set_self t (d, c) _

/-- C10 witness: an `Exact 9` record at key `(2, 7)` survives an insert of
value `100` at the same state and depth. -/
def tW10 : Table Int := [((2, 7), Interval.Exact 9)]

theorem table_insert_preserves_exact_witness :
    (Table.insert gW3 tW10 7 1 2 (-5) 5 100).find? (2, 7) =
      some (Interval.Exact 9) :=
  table_insert_preserves_exact gW3 tW10 7 1 2 (-5) 5 100 9 7 (by decide) (by decide)

end Negamax

namespace Negamax

variable {S : Type} [LinearOrder S] [DecidableEq S]

/-- C4: behaviour of `Table.get` (src/lib.rs lines 204-251).  With `c` the
minimum of the state's symmetries: a probe for player `-1` first swaps the
state and re-probes as player `+1`; an absent key returns nothing and leaves
the window unchanged; a stored `Exact` value is returned immediately; a
stored `Upperbound` lowers `beta` when its value is smaller and a stored
`Lowerbound` raises `alpha` when its value is larger, and in both cases the
(updated) `alpha` — the boundary of the narrowed window — is returned
immediately if `alpha ≥ beta` now holds, otherwise nothing is returned and
the narrowed window is handed back to the caller. -/
theorem table_get_probe_behavior (g : Game S) (t : Table S) (s : S) (d : Nat)
    (α β : Int) (c : S) (hc : (g.symmetries s).min? = some c) :
    (Table.get g t s (-1) d α β = Table.get g t (g.swap s) 1 d α β)
    ∧ (t.find? (d, c) = none → Table.get g t s 1 d α β = (none, α, β))
    ∧ (∀ v, t.find? (d, c) = some (Interval.Exact v) →
        Table.get g t s 1 d α β = (some v, α, β))
    ∧ (∀ b, t.find? (d, c) = some (Interval.Upperbound b) →
        Table.get g t s 1 d α β =
          (if α ≥ (if b < β then b else β)
           then (some α, α, if b < β then b else β)
           else (none, α, if b < β then b else β)))
    ∧ (∀ a, t.find? (d, c) = some (Interval.Lowerbound a) →
        Table.get g t s 1 d α β =
          (if (if a > α then a else α) ≥ β
           then (some (if a > α then a else α), if a > α then a else α, β)
           else (none, if a > α then a else α, β))) := by
  have hone : ¬((1 : Int) = -1) := by norm_num
  have hcanon : canon g s = c := by
    unfold canon; rw [hc]
  refine ⟨rfl, ?_, ?_, ?_, ?_⟩
  · intro hfind
    simp only [Table.get, if_neg hone, hcanon, hfind]
  · intro v hfind
    simp only [Table.get, if_neg hone, hcanon, hfind]
  · intro b hfind
    simp only [Table.get, if_neg hone, hcanon, hfind]
  · intro a hfind
    simp only [Table.get, if_neg hone, hcanon, hfind]

/-- C4 witness: probing a table holding `Upperbound 2` at key `(3, 5)` with
window `(0, 4)` narrows `beta` to `2`, the window collapses (`0 ≥ 2` is
false — it does not collapse), so nothing is returned and the caller gets
the narrowed window `(0, 2)`. -/
def tW4 : Table Int := [((3, 5), Interval.Upperbound 2)]

theorem table_get_probe_behavior_witness :
    Table.get gW3 tW4 5 1 3 0 4 = (none, 0, 2) := by
  have h := (table_get_probe_behavior gW3 tW4 5 3 0 4 5 (by decide)).2.2.2.1 2
    (by decide)
  simpa using h

end Negamax

namespace Negamax

variable {S : Type} [LinearOrder S] [DecidableEq S]

/-- The running maximum of the scores, seeded with the sentinel or any
intermediate best value. -/
def bestScore (best : Int) (ps : List (S × Int)) : Int :=
  ps.foldl (fun a y => max a y.2) best

/-- The children whose score equals `m`, in discovery order. -/
def collectMax (m : Int) (ps : List (S × Int)) : List S :=
  (ps.filter (fun x => x.2 == m)).map Prod.fst

theorem bestScore_cons (best : Int) (c : S) (v : Int) (l : List (S × Int)) :
    bestScore best ((c, v) :: l) = bestScore (max best v) l := rfl

theorem le_bestScore (xs : List (S × Int)) :
    ∀ init : Int, init ≤ bestScore init xs := by
  induction xs with
  | nil => intro init; simp [bestScore]
  | cons y ys ih =>
    intro init
    obtain ⟨c, v⟩ := y
    rw [bestScore_cons]
    exact le_trans (le_max_left init v) (ih (max init v))

theorem collectMax_cons (m : Int) (c : S) (v : Int) (l : List (S × Int)) :
    collectMax m ((c, v) :: l) =
      if v = m then c :: collectMax m l else collectMax m l := by
  by_cases h : v = m
  · simp [collectMax, List.filter_cons, h]
  · simp [collectMax, List.filter_cons, h]

/-- The accumulator recursion of the `bot_play` enumeration, abstracted over
the already-computed list of (child, score) pairs: a strictly larger score
clears the accumulator and restarts it with the current child, an equal score
appends the child. -/
def argmaxGo : List (S × Int) → Int → List S → List S
  | [], _, acc => acc
  | (c, v) :: rest, best, acc =>
    if v > best then argmaxGo rest v [c]
    else if v = best then argmaxGo rest best (acc ++ [c])
    else argmaxGo rest best acc

/-- The accumulator recursion returns the accumulator (kept only when no
later score is strictly larger than the running maximum) extended with all
remaining children whose score equals the overall maximum. -/
theorem argmaxGo_eq (ps : List (S × Int)) :
    ∀ (best : Int) (acc : List S),
      argmaxGo ps best acc =
        (if bestScore best ps = best then acc else []) ++
          collectMax (bestScore best ps) ps := by
  induction ps with
  | nil =>
    intro best acc
    simp [argmaxGo, bestScore, collectMax]
  | cons y rest ih =>
    obtain ⟨c, v⟩ := y
    intro best acc
    simp only [argmaxGo]
    rw [bestScore_cons, collectMax_cons]
    rcases lt_trichotomy best v with h | h | h
    · rw [if_pos h, ih v [c], max_eq_right h.le]
      have hub : v ≤ bestScore v rest := le_bestScore rest v
      have hne : bestScore v rest ≠ best := by omega
      rw [if_neg hne]
      by_cases hEq : bestScore v rest = v
      · rw [if_pos hEq, if_pos hEq.symm]
        rfl
      · rw [if_neg hEq, if_neg (fun hh => hEq hh.symm)]
    · have h1 : ¬ v > best := by omega
      rw [if_neg h1, if_pos h.symm, ih best (acc ++ [c]), ← h, max_self]
      have hub : best ≤ bestScore best rest := le_bestScore rest best
      by_cases hEq : bestScore best rest = best
      · rw [if_pos hEq, if_pos hEq, if_pos hEq.symm]
        simp
      · have hne2 : ¬ best = bestScore best rest := fun hh => hEq hh.symm
        rw [if_neg hEq, if_neg hEq, if_neg hne2]
    · have h1 : ¬ v > best := by omega
      have h2 : ¬ v = best := by omega
      rw [if_neg h1, if_neg h2, ih best acc, max_eq_left h.le]
      have hub : best ≤ bestScore best rest := le_bestScore rest best
      have hne : ¬ v = bestScore best rest := by omega
      rw [if_neg hne]

/-- The table-threading loop of `bot_play` computes the same collection as
the accumulator recursion run over the threaded scores, and its final table
is the scan's final table. -/
theorem botGo_eq_argmaxGo (g : Game S) (p : Int) (d : Nat) (cs : List S) :
    ∀ (t : Table S) (best : Int) (acc : List S),
      botGo g p d cs best acc t =
        (argmaxGo (botScan g p d cs t).1 best acc, (botScan g p d cs t).2) := by
  induction cs with
  | nil =>
    intro t best acc
    simp [botGo, botScan, argmaxGo]
  | cons c rest ih =>
    intro t best acc
    simp only [botGo, botScan, argmaxGo]
    by_cases h1 : -(negamax_table g (-p) d c (-I32MAX) I32MAX t).1 > best
    · rw [if_pos h1, if_pos h1, ih]
    · rw [if_neg h1, if_neg h1]
      by_cases h2 : -(negamax_table g (-p) d c (-I32MAX) I32MAX t).1 = best
      · rw [if_pos h2, if_pos h2, ih]
      · rw [if_neg h2, if_neg h2, ih]

/-- C5: `bot_play` returns exactly the children of `possibilities(player)`
whose threaded score `-negamax_table(child, -player, depth, -∞, +∞, ·)`
equals the maximum such score (seeded with the sentinel `-i32::MAX`), in
discovery order — the collection is cleared and restarted whenever a strictly
larger score appears — together with the table as left by the searches; an
empty move list yields an empty sequence.  Source: src/lib.rs lines 104-121. -/
theorem bot_play_collects_argmax (g : Game S) (s : S) (p : Int) (d : Nat)
    (t : Table S) :
    bot_play g s p d t =
      (collectMax
         (bestScore (-I32MAX) (botScan g p d (g.possibilities s p) t).1)
         (botScan g p d (g.possibilities s p) t).1,
       (botScan g p d (g.possibilities s p) t).2) := by
  rw [bot_play, botGo_eq_argmaxGo g p d (g.possibilities s p) t (-I32MAX) [],
    argmaxGo_eq (botScan g p d (g.possibilities s p) t).1 (-I32MAX) []]
  simp

end Negamax

namespace Negamax

variable {S : Type} [LinearOrder S] [DecidableEq S]

/-- The plain child loop is invariant under replacing the recursive call by
its swapped counterpart on the swapped child list. -/
theorem negamaxLoop_congr (g : Game S) (f f2 : S → Int → Int → Int)
    (hf : ∀ c a b, f c a b = f2 (g.swap c) a b) (β : Int) :
    ∀ (cs : List S) (best α : Int),
      negamaxLoop f β cs best α = negamaxLoop f2 β (cs.map g.swap) best α := by
  intro cs
  induction cs with
  | nil => intro best α; rfl
  | cons c rest ih =>
    intro best α
    simp only [negamaxLoop, List.map_cons, hf]
    exact if_congr Iff.rfl rfl (ih _ _)

/-- Plain negamax is equivariant under the player swap, given a coherent
game model: searching `s` for `p` equals searching the swapped state for
`-p`. -/
theorem negamax_swap (g : Game S)
    (hwin : ∀ x q, g.win (g.swap x) q = g.win x (-q))
    (hval : ∀ x, g.value (g.swap x) = - g.value x)
    (hposs : ∀ x q,
      g.possibilities (g.swap x) q = (g.possibilities x (-q)).map g.swap) :
    ∀ (d : Nat) (p : Int) (s : S) (α β : Int),
      negamax g p d s α β = negamax g (-p) d (g.swap s) α β := by
  intro d
  induction d with
  | zero =>
    intro p s α β
    simp only [negamax, hval]
    ring
  | succ d ih =>
    intro p s α β
    simp only [negamax, neg_neg, hwin, hval, hposs]
    split
    · ring
    · exact negamaxLoop_congr g _ _
        (fun c a b => by rw [ih (-p) c a b, neg_neg]) β
        (g.possibilities s p) (-I32MAX) α

/-- Probing the table for `s` and `p ∈ {+1, -1}` equals probing it for the
swapped state and `-p` (the stored entries are keyed from the `+1`
perspective). -/
theorem table_get_swap (g : Game S) (hswap : ∀ x, g.swap (g.swap x) = x)
    (t : Table S) (s : S) (p : Int) (depth : Nat) (α β : Int)
    (hp : p = 1 ∨ p = -1) :
    Table.get g t s p depth α β = Table.get g t (g.swap s) (-p) depth α β := by
  rcases hp with rfl | rfl <;> simp [Table.get, hswap]

/-- Inserting for `s` and `p ∈ {+1, -1}` equals inserting for the swapped
state and `-p`. -/
theorem table_insert_swap (g : Game S) (hswap : ∀ x, g.swap (g.swap x) = x)
    (t : Table S) (s : S) (p : Int) (depth : Nat) (α β v : Int)
    (hp : p = 1 ∨ p = -1) :
    Table.insert g t s p depth α β v =
      Table.insert g t (g.swap s) (-p) depth α β v := by
  rcases hp with rfl | rfl <;> simp [Table.insert, hswap]

/-- The table-threading child loop is invariant under replacing the
recursive call by its swapped counterpart on the swapped child list. -/
theorem ntLoop_congr (g : Game S)
    (f f2 : S → Int → Int → Table S → Int × Table S)
    (hf : ∀ c a b t, f c a b t = f2 (g.swap c) a b t) (β : Int) :
    ∀ (cs : List S) (best α : Int) (t : Table S),
      ntLoop f β cs best α t = ntLoop f2 β (cs.map g.swap) best α t := by
  intro cs
  induction cs with
  | nil => intro best α t; rfl
  | cons c rest ih =>
    intro best α t
    simp only [ntLoop, List.map_cons, hf]
    exact if_congr Iff.rfl rfl (ih _ _ _)

/-- Table-backed negamax is equivariant under the player swap for a coherent
game model, returning both the same score and the same table. -/
theorem negamax_table_swap (g : Game S)
    (hswap : ∀ x, g.swap (g.swap x) = x)
    (hwin : ∀ x q, g.win (g.swap x) q = g.win x (-q))
    (hval : ∀ x, g.value (g.swap x) = - g.value x)
    (hposs : ∀ x q,
      g.possibilities (g.swap x) q = (g.possibilities x (-q)).map g.swap) :
    ∀ (d : Nat) (p : Int) (s : S) (α β : Int) (t : Table S),
      (p = 1 ∨ p = -1) →
      negamax_table g p d s α β t = negamax_table g (-p) d (g.swap s) α β t := by
  intro d
  induction d with
  | zero =>
    intro p s α β t hp
    simp only [negamax_table, hval, Prod.mk.injEq, and_true]
    ring
  | succ d ih =>
    intro p s α β t hp
    have hp2 : -p = 1 ∨ -p = -1 := by
      rcases hp with rfl | rfl
      · right; norm_num
      · left; norm_num
    simp only [negamax_table, neg_neg, hwin, hval, hposs]
    rw [← table_get_swap g hswap t s p (d + 1) α β hp]
    split
    · simp only [Prod.mk.injEq, and_true]
      ring
    · split
      · rw [← negamax_swap g hwin hval hposs (d + 1) p s α β]
      · split
        · rfl
        · rename_i alpha2 beta2 heq
          have hr := ntLoop_congr g
            (fun c a b tt => negamax_table g (-p) d c a b tt)
            (fun c a b tt => negamax_table g p d c a b tt)
            (fun c a b tt => by
              show negamax_table g (-p) d c a b tt =
                negamax_table g p d (g.swap c) a b tt
              rw [ih (-p) c a b tt hp2, neg_neg]) beta2
            (g.possibilities s p) (-I32MAX) alpha2 t
          rw [hr, table_insert_swap g hswap _ s p (d + 1) alpha2 beta2 _ hp]

/-- C7: perspective antisymmetry of the root evaluation,
`negamax_value(s, +1, d, t) = -negamax_value(swap s, -1, d, t)`, under the
game-model hypotheses that `swap` is an involution and coherently exchanges
the two players in `win`, `value`, `possibilities` and `symmetries`.
Source: src/lib.rs lines 100-102 and 204-216. -/
theorem negamax_value_perspective_antisymm (g : Game S)
    (hswap : ∀ x, g.swap (g.swap x) = x)
    (hwin : ∀ x q, g.win (g.swap x) q = g.win x (-q))
    (hval : ∀ x, g.value (g.swap x) = - g.value x)
    (hposs : ∀ x q,
      g.possibilities (g.swap x) q = (g.possibilities x (-q)).map g.swap)
    (hsym : ∀ x, g.symmetries (g.swap x) = (g.symmetries x).map g.swap)
    (s : S) (d : Nat) (t : Table S) :
    (negamax_value g 1 d s t).1 = - (negamax_value g (-1) d (g.swap s) t).1 := by
  have h := negamax_table_swap g hswap hwin hval hposs d 1 s
    (-I32MAX) I32MAX t (Or.inl rfl)
  simp only [negamax_value, h]
  ring

/-- C7 witness game: states are integers, `swap` is negation, no wins, all
values `0`, no moves, trivial symmetries — a coherent (if degenerate)
model. -/
def gW7 : Game Int :=
  ⟨fun _ _ => false, fun _ => 0, fun _ _ => [], fun x => -x, fun x => [x]⟩

theorem negamax_value_perspective_antisymm_witness :
    (negamax_value gW7 1 3 5 (Table.new Int)).1 =
      - (negamax_value gW7 (-1) 3 (-5) (Table.new Int)).1 := by
  have h := negamax_value_perspective_antisymm gW7
    (fun x => neg_neg x)
    (fun x q => rfl)
    (fun x => by norm_num [gW7])
    (fun x q => rfl)
    (fun x => rfl)
    5 3 (Table.new Int)
  simpa [gW7] using h

end Negamax

namespace Negamax

variable {S : Type} [LinearOrder S] [DecidableEq S]

/-- C1 (amended part): for `depth ≤ 2` the table-backed search delegates to
plain negamax (src/lib.rs lines 60-62), so it returns the same integer and
leaves any table unchanged. -/
theorem negamax_table_eq_negamax_of_depth_le_two (g : Game S) (p : Int)
    (d : Nat) (s : S) (α β : Int) (t : Table S) (hd : d ≤ 2) :
    negamax_table g p d s α β t = (negamax g p d s α β, t) := by
  match d, hd with
  | 0, _ => rfl
  | 1, _ =>
    by_cases hw : g.win s (-p) = true
    · simp [negamax_table, negamax, hw]
    · simp [negamax_table, negamax, hw]
  | 2, _ =>
    by_cases hw : g.win s (-p) = true
    · simp [negamax_table, negamax, hw]
    · simp [negamax_table, negamax, hw]

/-- C1 amended-part witness: a depth-2 call on a concrete game agrees with
plain negamax and keeps the table empty. -/
def gW1 : Game Int :=
  ⟨fun _ _ => false, fun s => s, fun s _ => [s + 1], fun s => -s, fun s => [s]⟩

theorem negamax_table_eq_negamax_of_depth_le_two_witness :
    negamax_table gW1 1 2 3 (-7) 7 (Table.new Int) =
      (negamax gW1 1 2 3 (-7) 7, Table.new Int) :=
  negamax_table_eq_negamax_of_depth_le_two gW1 1 2 3 (-7) 7 (Table.new Int)
    (by decide)

/-- The move graph of the C1 counterexample game, on the positive codes:
`1` (root) branches to `2` and `3`, which both move to the shared state `4`
(the transposition), then a single line `4 → 5 → 6`, and every other state
has a waiting move to itself so that no reachable state is stuck. -/
def ceEdges : Int → List Int
  | 1 => [2, 3]
  | 2 => [4]
  | 3 => [4]
  | 4 => [5]
  | 5 => [6]
  | s => [s]

/-- The C1 counterexample game.  States are integers; state `-n` is state
`n` with the two players exchanged (`swap` is negation), `win` never holds,
moves ignore the player and are mirrored on the negative side, the only
nonzero valuation is `value 6 = -6` (and its mirror `value (-6) = 6`), and
every symmetry class is trivial.  The coherence lemmas below show this is a
well-formed model of the capability contract. -/
def gCE : Game Int := {
  win := fun _ _ => false
  value := fun s => if s = 6 then -6 else if s = -6 then 6 else 0
  possibilities := fun s _ =>
    if 0 ≤ s then ceEdges s else (ceEdges (-s)).map (fun x => -x)
  swap := fun s => -s
  symmetries := fun s => [s]
}

theorem gCE_swap_involutive : ∀ s : Int, gCE.swap (gCE.swap s) = s :=
  fun s => neg_neg s

theorem gCE_win_swap : ∀ (s q : Int), gCE.win (gCE.swap s) q = gCE.win s (-q) :=
  fun _ _ => rfl

theorem gCE_value_swap : ∀ s : Int, gCE.value (gCE.swap s) = - gCE.value s := by
  intro s
  show (if -s = 6 then (-6 : Int) else if -s = -6 then 6 else 0) =
    - (if s = 6 then (-6 : Int) else if s = -6 then 6 else 0)
  split_ifs <;> omega

theorem gCE_poss_swap : ∀ (s q : Int),
    gCE.possibilities (gCE.swap s) q =
      (gCE.possibilities s (-q)).map gCE.swap := by
  intro s q
  show (if 0 ≤ -s then ceEdges (-s) else (ceEdges (-(-s))).map (fun x => -x)) =
    (if 0 ≤ s then ceEdges s else (ceEdges (-s)).map (fun x => -x)).map
      (fun x => -x)
  rcases lt_trichotomy s 0 with h | h | h
  · rw [if_pos (by omega), if_neg (by omega), List.map_map]
    have : ((fun x : Int => -x) ∘ fun x : Int => -x) = id := by
      funext x; simp
    rw [this, List.map_id]
  · subst h; decide
  · rw [if_neg (by omega), if_pos h.le, neg_neg]

theorem gCE_sym_swap : ∀ s : Int,
    gCE.symmetries (gCE.swap s) = (gCE.symmetries s).map gCE.swap :=
  fun _ => rfl

/-- C1 counterexample: on the coherent game `gCE`, at the root state `1`,
player `+1`, depth `5`, window `(-4, 4)` and an initially empty table,
`negamax_table` returns `-4` while plain `negamax` returns `-6`.  The first
visit of the shared state `4` (at remaining depth `3`) fails low and records
`Upperbound (-6)`; the probe from the transposed second path narrows `beta`
to `-6`, the window `(-4, -6)` collapses, and `get` returns the caller's
`alpha = -4` (src/lib.rs lines 246-248) instead of the recomputed score, and
this boundary value propagates to the root. -/
theorem negamax_table_ne_negamax_counterexample :
    (negamax_table gCE 1 5 1 (-4) 4 (Table.new Int)).1 = -4
    ∧ negamax gCE 1 5 1 (-4) 4 = -6
    ∧ (negamax_table gCE 1 5 1 (-4) 4 (Table.new Int)).1 ≠
        negamax gCE 1 5 1 (-4) 4 := by
  refine ⟨by decide, by decide, by decide⟩

/-- C8: on the minimal game in which `win(+1)` always holds, `win(-1)` never
holds, `value` is constantly `1`, and every state has a successor,
`negamax_value(state, +1, 3, empty table)` is exactly `3`: the root is not
terminal (its mover is `+1`, so `win(-1)` is tested), and the depth-2 child
call hits the terminal rule returning `-1 * 1 * 3`. -/
def gC8 : Game Int := {
  win := fun _ q => q == 1
  value := fun _ => 1
  possibilities := fun _ _ => [0]
  swap := fun s => s
  symmetries := fun s => [s]
}

theorem trivial_game_negamax_value_depth_three :
    (negamax_value gC8 1 3 0 (Table.new Int)).1 = 3 := by decide

end Negamax
